import Mathlib

/-!
Verification of the audio gain filter (`src/audio_filter/audio_filter.cpp`).

The C++ source is a single function:

    void apply_gain(short* samples, size_t length, float gain) {
        for (size_t i = 0; i < length; ++i) {
            int sample = static_cast<int>(samples[i] * gain);
            if (sample > 32767) sample = 32767;
            if (sample < -32768) sample = -32768;
            samples[i] = static_cast<short>(sample);
        }
    }

Shallow embedding, at two levels of fidelity.  In both, the sample buffer
is a `List ℤ` (each element a 16-bit signed sample, i.e. an integer in
`[-32768, 32767]`) and the gain is a rational number (every finite
floating-point value is a rational).

* The exact-arithmetic model (`processSample`, `apply_gain`) multiplies
  exactly and truncates the exact product with an unbounded integer
  intermediate.  It agrees with the program on inputs whose float32
  products are exact and in range — in particular on gains 0, 0.5, 1 and 2
  with 16-bit samples — and serves the algebraic and frame properties.

* The bit-faithful model (`fl32`, `castToInt32`, `processSampleF`,
  `apply_gainF`) rounds the product to binary32 (round-to-nearest,
  ties-to-even, with gradual underflow) and models `static_cast<int>` as
  defined only when the truncated value fits a 32-bit signed int, the C++
  undefined-behaviour boundary.  It serves the numerical properties, where
  float32 rounding and int overflow are observable.
-/

namespace AudioFilter

/-- Truncation toward zero of a rational number: the semantics of C++
`static_cast<int>` on a floating-point value (discard the fractional part),
i.e. floor for nonnegative arguments and ceiling for negative ones.  This is
the `truncate_toward_zero` / `round_toward_zero` of the specification. -/
def truncTowardZero (q : ℚ) : ℤ :=
  if 0 ≤ q then ⌊q⌋ else ⌈q⌉

/-- One iteration of the loop body of `apply_gain`:
`int sample = static_cast<int>(samples[i] * gain);` followed by the two
clamping `if` statements, in source order. -/
def processSample (gain : ℚ) (s : ℤ) : ℤ :=
  let sample := truncTowardZero ((s : ℚ) * gain)
  let sample := if sample > 32767 then 32767 else sample
  let sample := if sample < -32768 then -32768 else sample
  sample

/-- The loop of `apply_gain`: process the first `length` elements of the
buffer in order, leaving the rest untouched.  (In C++ a `length` exceeding
the buffer size is undefined behaviour; the model simply stops at the end
of the list.) -/
def apply_gain (samples : List ℤ) (length : ℕ) (gain : ℚ) : List ℤ :=
  match length, samples with
  | _, [] => []
  | 0, l => l
  | n + 1, s :: rest => processSample gain s :: apply_gain rest n gain

/-- Instrumented variant of `apply_gain` that additionally counts the number
of loop iterations executed. -/
def applyGainIter (samples : List ℤ) (length : ℕ) (gain : ℚ) : List ℤ × ℕ :=
  match length, samples with
  | _, [] => ([], 0)
  | 0, l => (l, 0)
  | n + 1, s :: rest =>
    let r := applyGainIter rest n gain
    (processSample gain s :: r.1, r.2 + 1)

/-- Round a rational to the nearest integer, ties to even: the IEEE-754
default rounding applied to a scaled significand. -/
def roundNearestEven (y : ℚ) : ℤ :=
  let f := ⌊y⌋
  let r := y - (f : ℚ)
  if r < 1/2 then f
  else if 1/2 < r then f + 1
  else if Even f then f else f + 1

/-- Exponent of the unit in the last place of the binary32 value nearest to
`x`: normal numbers carry 24 significand bits, subnormals bottom out at
2^(-149). -/
def ulpExponent (x : ℚ) : ℤ :=
  max (-149) (Int.log 2 |x| - 23)

/-- Binary32 (IEEE-754 single precision) rounding of an exact rational
value, round-to-nearest ties-to-even.  Values beyond the finite float range
are kept as correspondingly huge rationals; every such value is rejected
downstream by `castToInt32`, exactly as the overflowed float (or infinity)
would be by the undefined int cast. -/
def fl32 (x : ℚ) : ℚ :=
  if x = 0 then 0
  else (roundNearestEven (x / 2 ^ ulpExponent x) : ℚ) * 2 ^ ulpExponent x

/-- `static_cast<int>` on a floating-point value: truncation toward zero,
defined only when the truncated value is representable in a 32-bit signed
int — otherwise the C++ behaviour is undefined (`none`). -/
def castToInt32 (q : ℚ) : Option ℤ :=
  if -2147483648 ≤ truncTowardZero q ∧ truncTowardZero q ≤ 2147483647 then
    some (truncTowardZero q)
  else none

/-- The two clamping `if` statements of the loop body, in source order. -/
def clamp16 (sample : ℤ) : ℤ :=
  let sample := if sample > 32767 then 32767 else sample
  let sample := if sample < -32768 then -32768 else sample
  sample

/-- Bit-faithful loop body: the 16-bit sample is promoted to float (exact,
since |s| ≤ 32768 < 2^24), multiplied by the float32 gain with binary32
rounding of the exact product, cast to `int` (undefined behaviour, `none`,
on overflow), and clamped.  The gain ranges over ℚ, a superset of the
finite binary32 values; at float-valued gains this is exactly the
hardware's correctly rounded multiply. -/
def processSampleF (gain : ℚ) (s : ℤ) : Option ℤ :=
  match castToInt32 (fl32 ((s : ℚ) * gain)) with
  | none => none
  | some sample => some (clamp16 sample)

/-- Bit-faithful `apply_gain`: `none` when any processed element hits the
undefined int cast. -/
def apply_gainF (samples : List ℤ) (length : ℕ) (gain : ℚ) : Option (List ℤ) :=
  match length, samples with
  | _, [] => some []
  | 0, l => some l
  | n + 1, s :: rest =>
    match processSampleF gain s, apply_gainF rest n gain with
    | some v, some tl => some (v :: tl)
    | _, _ => none

/-! ### Helper lemmas about truncation toward zero -/

/-- Truncation toward zero, rewritten with the ceiling expressed through the
floor; convenient for `norm_num` evaluation on concrete rationals. -/
theorem truncTowardZero_eq_neg_floor_neg (q : ℚ) :
    truncTowardZero q = if 0 ≤ q then ⌊q⌋ else -⌊-q⌋ := by
  unfold truncTowardZero
  split
  · rfl
  · rw [← Int.ceil_neg, neg_neg]

/-- Truncation toward zero of an integer is that integer. -/
theorem truncTowardZero_intCast (n : ℤ) : truncTowardZero (n : ℚ) = n := by
  unfold truncTowardZero
  split
  · exact Int.floor_intCast n
  · exact Int.ceil_intCast n

/-- Truncation toward zero of zero is zero. -/
theorem truncTowardZero_zero : truncTowardZero 0 = 0 := by
  unfold truncTowardZero
  rw [if_pos le_rfl]
  exact Int.floor_zero

/-- An upper bound on the argument gives the same upper bound on the
truncation (for the bound 32767). -/
theorem truncTowardZero_le (q : ℚ) (h : q ≤ 32767) : truncTowardZero q ≤ 32767 := by
  unfold truncTowardZero
  split
  · exact_mod_cast (Int.floor_le q).trans h
  · exact Int.ceil_le.mpr (by push_cast; linarith)

/-- A lower bound on the argument gives the same lower bound on the
truncation (for the bound -32768). -/
theorem le_truncTowardZero (q : ℚ) (h : -32768 ≤ q) : -32768 ≤ truncTowardZero q := by
  unfold truncTowardZero
  split
  · exact Int.le_floor.mpr (by push_cast; linarith)
  · exact_mod_cast h.trans (Int.le_ceil q)

/-- An argument above 32767 truncates to at least 32767. -/
theorem le_truncTowardZero_of_lt (q : ℚ) (h : 32767 < q) : 32767 ≤ truncTowardZero q := by
  unfold truncTowardZero
  rw [if_pos (by linarith)]
  exact Int.le_floor.mpr (by push_cast; linarith)

/-- An argument below -32768 truncates to at most -32768. -/
theorem truncTowardZero_le_of_lt (q : ℚ) (h : q < -32768) : truncTowardZero q ≤ -32768 := by
  unfold truncTowardZero
  rw [if_neg (by linarith)]
  exact Int.ceil_le.mpr (by push_cast; linarith)

/-! ### Helper lemmas about the loop body -/

/-- The loop body with its `let` chain spelled out. -/
theorem processSample_def (gain : ℚ) (s : ℤ) :
    processSample gain s =
      if (if truncTowardZero ((s : ℚ) * gain) > 32767 then 32767
          else truncTowardZero ((s : ℚ) * gain)) < -32768 then -32768
      else if truncTowardZero ((s : ℚ) * gain) > 32767 then 32767
      else truncTowardZero ((s : ℚ) * gain) := rfl

/-- After both clamping steps the stored value is within the 16-bit range. -/
theorem processSample_range (gain : ℚ) (s : ℤ) :
    -32768 ≤ processSample gain s ∧ processSample gain s ≤ 32767 := by
  rw [processSample_def]
  split_ifs <;> omega

/-- Gain 1 maps an in-range sample to itself. -/
theorem processSample_one (s : ℤ) (h1 : -32768 ≤ s) (h2 : s ≤ 32767) :
    processSample 1 s = s := by
  rw [processSample_def, mul_one, truncTowardZero_intCast]
  split_ifs <;> omega

/-- Gain 0 maps every sample to 0. -/
theorem processSample_zero (s : ℤ) : processSample 0 s = 0 := by
  rw [processSample_def, mul_zero, truncTowardZero_zero]
  norm_num

/-! ### Helper lemmas about the loop -/

/-- `apply_gain` preserves the buffer length. -/
theorem apply_gain_length (samples : List ℤ) (len : ℕ) (g : ℚ) :
    (apply_gain samples len g).length = samples.length := by
  induction samples generalizing len with
  | nil => simp [apply_gain]
  | cons s rest ih =>
    cases len with
    | zero => simp [apply_gain]
    | succ n => simp [apply_gain, ih]

/-- Element-wise description of `apply_gain`: positions below `len` (and
within the buffer) hold the processed sample, all others are untouched. -/
theorem apply_gain_getD (samples : List ℤ) (len : ℕ) (g : ℚ) (i : ℕ) (d : ℤ) :
    (apply_gain samples len g).getD i d =
      if i < len ∧ i < samples.length then processSample g (samples.getD i d)
      else samples.getD i d := by
  induction samples generalizing len i with
  | nil => simp [apply_gain]
  | cons s rest ih =>
    cases len with
    | zero => simp [apply_gain]
    | succ n =>
      cases i with
      | zero => simp [apply_gain]
      | succ j =>
        have h := ih n j
        simp only [apply_gain, List.getD_cons_succ, List.length_cons] at h ⊢
        rw [h]
        have hiff : (j < n ∧ j < rest.length) ↔ (j + 1 < n + 1 ∧ j + 1 < rest.length + 1) := by
          omega
        by_cases hc : j < n ∧ j < rest.length
        · rw [if_pos hc, if_pos (hiff.mp hc)]
        · rw [if_neg hc, if_neg (fun hcc => hc (hiff.mpr hcc))]

/-! ### Helper lemmas about binary32 rounding -/

/-- Rounding to nearest never goes below the floor. -/
theorem floor_le_roundNearestEven (y : ℚ) : ⌊y⌋ ≤ roundNearestEven y := by
  simp only [roundNearestEven]
  split_ifs <;> omega

/-- Rounding to nearest never goes above the ceiling. -/
theorem roundNearestEven_le_ceil (y : ℚ) : roundNearestEven y ≤ ⌈y⌉ := by
  simp only [roundNearestEven]
  split_ifs with h1 h2 h3
  · exact Int.floor_le_ceil y
  · have : ⌊y⌋ < ⌈y⌉ := Int.lt_ceil.mpr (by linarith)
    omega
  · exact Int.floor_le_ceil y
  · have : ⌊y⌋ < ⌈y⌉ := Int.lt_ceil.mpr (by push_neg at h1; linarith)
    omega

/-- Rounding an integer to nearest returns it. -/
theorem roundNearestEven_intCast (n : ℤ) : roundNearestEven (n : ℚ) = n := by
  simp only [roundNearestEven, Int.floor_intCast, sub_self]
  rw [if_pos (by norm_num)]

/-- Evaluation rule: a value strictly below the halfway point rounds down. -/
theorem roundNearestEven_eq_floor (y : ℚ) (f : ℤ) (h1 : (f : ℚ) ≤ y) (h2 : y < f + 1/2) :
    roundNearestEven y = f := by
  have hf : ⌊y⌋ = f := Int.floor_eq_iff.mpr ⟨h1, by linarith⟩
  simp only [roundNearestEven, hf]
  rw [if_pos (by linarith)]

/-- Evaluation rule: a value strictly above the halfway point rounds up. -/
theorem roundNearestEven_eq_ceil (y : ℚ) (f : ℤ) (h1 : (f : ℚ) + 1/2 < y) (h2 : y < f + 1) :
    roundNearestEven y = f + 1 := by
  have hf : ⌊y⌋ = f := Int.floor_eq_iff.mpr ⟨by linarith, by linarith⟩
  simp only [roundNearestEven, hf]
  rw [if_neg (by linarith), if_pos (by linarith)]

/-- The ulp exponent is pinned down by a power-of-two bracketing of `|x|`
in the normal range. -/
theorem ulpExponent_eq (x : ℚ) (e : ℤ) (he : -126 ≤ e)
    (h1 : (2 : ℚ) ^ e ≤ |x|) (h2 : |x| < (2 : ℚ) ^ (e + 1)) :
    ulpExponent x = e - 23 := by
  have hx : (0 : ℚ) < |x| := lt_of_lt_of_le (zpow_pos (by norm_num) e) h1
  have hb : (1 : ℕ) < 2 := by norm_num
  have hle : e ≤ Int.log 2 |x| := by
    rw [← Int.zpow_le_iff_le_log hb hx]
    exact_mod_cast h1
  have hlt : Int.log 2 |x| < e + 1 := by
    rw [← Int.lt_zpow_iff_log_lt hb hx]
    exact_mod_cast h2
  unfold ulpExponent
  omega

/-- Evaluation rule for `fl32` given a power-of-two bracketing of `|x|`. -/
theorem fl32_eq_of_bracket (x : ℚ) (e : ℤ) (he : -126 ≤ e)
    (h1 : (2 : ℚ) ^ e ≤ |x|) (h2 : |x| < (2 : ℚ) ^ (e + 1)) :
    fl32 x = (roundNearestEven (x / 2 ^ (e - 23)) : ℚ) * 2 ^ (e - 23) := by
  have hx : x ≠ 0 := by
    intro h
    rw [h] at h1
    simp at h1
    have := zpow_pos (show (0:ℚ) < 2 by norm_num) e
    linarith
  unfold fl32
  rw [if_neg hx, ulpExponent_eq x e he h1 h2]

/-- A grid point below `x` stays below its binary32 rounding. -/
theorem le_fl32_of_grid_le (x : ℚ) (m : ℤ) (hx : x ≠ 0)
    (h : (m : ℚ) * 2 ^ ulpExponent x ≤ x) :
    (m : ℚ) * 2 ^ ulpExponent x ≤ fl32 x := by
  unfold fl32
  rw [if_neg hx]
  have hpos : (0 : ℚ) < 2 ^ ulpExponent x := zpow_pos (by norm_num) _
  have hy : (m : ℚ) ≤ x / 2 ^ ulpExponent x := (le_div_iff₀ hpos).mpr h
  have hm : m ≤ roundNearestEven (x / 2 ^ ulpExponent x) :=
    le_trans (Int.le_floor.mpr hy) (floor_le_roundNearestEven _)
  exact mul_le_mul_of_nonneg_right (by exact_mod_cast hm) hpos.le

/-- A grid point above `x` stays above its binary32 rounding. -/
theorem fl32_le_of_le_grid (x : ℚ) (m : ℤ) (hx : x ≠ 0)
    (h : x ≤ (m : ℚ) * 2 ^ ulpExponent x) :
    fl32 x ≤ (m : ℚ) * 2 ^ ulpExponent x := by
  unfold fl32
  rw [if_neg hx]
  have hpos : (0 : ℚ) < 2 ^ ulpExponent x := zpow_pos (by norm_num) _
  have hy : x / 2 ^ ulpExponent x ≤ (m : ℚ) := (div_le_iff₀ hpos).mpr h
  have hm : roundNearestEven (x / 2 ^ ulpExponent x) ≤ m :=
    le_trans (roundNearestEven_le_ceil _) (Int.ceil_le.mpr hy)
  exact mul_le_mul_of_nonneg_right (by exact_mod_cast hm) hpos.le

/-- Binary32 rounding loses less than one ulp downward. -/
theorem sub_ulp_lt_fl32 (x : ℚ) (hx : x ≠ 0) : x - 2 ^ ulpExponent x < fl32 x := by
  unfold fl32
  rw [if_neg hx]
  have hpos : (0 : ℚ) < 2 ^ ulpExponent x := zpow_pos (by norm_num) _
  have h2 : x / 2 ^ ulpExponent x - 1 < (⌊x / 2 ^ ulpExponent x⌋ : ℚ) :=
    Int.sub_one_lt_floor _
  have h1 : (⌊x / 2 ^ ulpExponent x⌋ : ℚ) ≤ (roundNearestEven (x / 2 ^ ulpExponent x) : ℚ) := by
    exact_mod_cast floor_le_roundNearestEven _
  calc x - 2 ^ ulpExponent x
      = (x / 2 ^ ulpExponent x - 1) * 2 ^ ulpExponent x := by field_simp
    _ < (⌊x / 2 ^ ulpExponent x⌋ : ℚ) * 2 ^ ulpExponent x :=
        mul_lt_mul_of_pos_right h2 hpos
    _ ≤ (roundNearestEven (x / 2 ^ ulpExponent x) : ℚ) * 2 ^ ulpExponent x :=
        mul_le_mul_of_nonneg_right h1 hpos.le

/-- Binary32 rounding gains less than one ulp upward. -/
theorem fl32_lt_add_ulp (x : ℚ) (hx : x ≠ 0) : fl32 x < x + 2 ^ ulpExponent x := by
  unfold fl32
  rw [if_neg hx]
  have hpos : (0 : ℚ) < 2 ^ ulpExponent x := zpow_pos (by norm_num) _
  have h2 : (⌈x / 2 ^ ulpExponent x⌉ : ℚ) < x / 2 ^ ulpExponent x + 1 :=
    Int.ceil_lt_add_one _
  have h1 : (roundNearestEven (x / 2 ^ ulpExponent x) : ℚ) ≤ (⌈x / 2 ^ ulpExponent x⌉ : ℚ) := by
    exact_mod_cast roundNearestEven_le_ceil _
  calc (roundNearestEven (x / 2 ^ ulpExponent x) : ℚ) * 2 ^ ulpExponent x
      ≤ (⌈x / 2 ^ ulpExponent x⌉ : ℚ) * 2 ^ ulpExponent x :=
        mul_le_mul_of_nonneg_right h1 hpos.le
    _ < (x / 2 ^ ulpExponent x + 1) * 2 ^ ulpExponent x :=
        mul_lt_mul_of_pos_right h2 hpos
    _ = x + 2 ^ ulpExponent x := by field_simp

/-- Binary32 rounding of a value above 32767 stays at or above 32767:
32767 is representable, so rounding cannot cross it downward. -/
theorem le_fl32_of_int16max_lt (x : ℚ) (h : 32767 < x) : (32767 : ℚ) ≤ fl32 x := by
  have hx0 : (0 : ℚ) < x := by linarith
  have hxne : x ≠ 0 := ne_of_gt hx0
  have habs : |x| = x := abs_of_pos hx0
  have hb : (1 : ℕ) < 2 := by norm_num
  have hpos : (0 : ℚ) < |x| := by rw [habs]; exact hx0
  have he14 : 14 ≤ Int.log 2 |x| := by
    rw [← Int.zpow_le_iff_le_log hb hpos, habs]
    calc ((2 : ℕ) : ℚ) ^ (14 : ℤ) = 16384 := by norm_num
      _ ≤ x := by linarith
  have hu : ulpExponent x = Int.log 2 |x| - 23 := by
    unfold ulpExponent
    rw [max_eq_right (by omega)]
  by_cases hc : Int.log 2 |x| ≤ 23
  · have hm : ((32767 * 2 ^ (23 - Int.log 2 |x|).toNat : ℤ) : ℚ) * 2 ^ ulpExponent x
        = 32767 := by
      rw [hu]
      push_cast
      rw [← zpow_natCast (2 : ℚ) (23 - Int.log 2 |x|).toNat,
        Int.toNat_of_nonneg (by omega), mul_assoc, ← zpow_add₀ (two_ne_zero : (2:ℚ) ≠ 0),
        show 23 - Int.log 2 |x| + (Int.log 2 |x| - 23) = 0 by omega, zpow_zero, mul_one]
    have hg := le_fl32_of_grid_le x (32767 * 2 ^ (23 - Int.log 2 |x|).toNat) hxne
      (by rw [hm]; linarith)
    rw [hm] at hg
    exact hg
  · push_neg at hc
    have h1 : x - 2 ^ ulpExponent x < fl32 x := sub_ulp_lt_fl32 x hxne
    rw [hu] at h1
    have h2 : (2 : ℚ) ^ Int.log 2 |x| ≤ |x| := by
      exact_mod_cast Int.zpow_log_le_self hb hpos
    have h3 : (2 : ℚ) ≤ (2 : ℚ) ^ (Int.log 2 |x| - 23) := by
      calc (2 : ℚ) = (2 : ℚ) ^ (1 : ℤ) := (zpow_one 2).symm
        _ ≤ (2 : ℚ) ^ (Int.log 2 |x| - 23) := by
            gcongr
            · norm_num
            · omega
    have h4 : (2 : ℚ) ^ (Int.log 2 |x| - 23) * 8388608 = 2 ^ Int.log 2 |x| := by
      rw [show (8388608 : ℚ) = (2 : ℚ) ^ (23 : ℤ) by norm_num,
        ← zpow_add₀ (two_ne_zero : (2:ℚ) ≠ 0)]
      congr 1
      omega
    linarith

/-- Binary32 rounding of a value below -32768 stays at or below -32768:
-32768 = -2^15 is representable, so rounding cannot cross it upward. -/
theorem fl32_le_of_lt_int16min (x : ℚ) (h : x < -32768) : fl32 x ≤ -32768 := by
  have hx0 : x < 0 := by linarith
  have hxne : x ≠ 0 := ne_of_lt hx0
  have habs : |x| = -x := abs_of_neg hx0
  have hb : (1 : ℕ) < 2 := by norm_num
  have hpos : (0 : ℚ) < |x| := abs_pos.mpr hxne
  have he15 : 15 ≤ Int.log 2 |x| := by
    rw [← Int.zpow_le_iff_le_log hb hpos, habs]
    calc ((2 : ℕ) : ℚ) ^ (15 : ℤ) = 32768 := by norm_num
      _ ≤ -x := by linarith
  have hu : ulpExponent x = Int.log 2 |x| - 23 := by
    unfold ulpExponent
    rw [max_eq_right (by omega)]
  by_cases hc : Int.log 2 |x| ≤ 38
  · have hm : ((-(2 ^ (38 - Int.log 2 |x|).toNat) : ℤ) : ℚ) * 2 ^ ulpExponent x
        = -32768 := by
      rw [hu]
      push_cast
      rw [← zpow_natCast (2 : ℚ) (38 - Int.log 2 |x|).toNat,
        Int.toNat_of_nonneg (by omega), neg_mul, ← zpow_add₀ (two_ne_zero : (2:ℚ) ≠ 0),
        show 38 - Int.log 2 |x| + (Int.log 2 |x| - 23) = 15 by omega]
      norm_num
    have hg := fl32_le_of_le_grid x (-(2 ^ (38 - Int.log 2 |x|).toNat)) hxne
      (by rw [hm]; linarith)
    rw [hm] at hg
    exact hg
  · push_neg at hc
    have h1 : fl32 x < x + 2 ^ ulpExponent x := fl32_lt_add_ulp x hxne
    rw [hu] at h1
    have h2 : (2 : ℚ) ^ Int.log 2 |x| ≤ |x| := by
      exact_mod_cast Int.zpow_log_le_self hb hpos
    have h3 : (2 : ℚ) ≤ (2 : ℚ) ^ (Int.log 2 |x| - 23) := by
      calc (2 : ℚ) = (2 : ℚ) ^ (1 : ℤ) := (zpow_one 2).symm
        _ ≤ (2 : ℚ) ^ (Int.log 2 |x| - 23) := by
            gcongr
            · norm_num
            · omega
    have h4 : (2 : ℚ) ^ (Int.log 2 |x| - 23) * 8388608 = 2 ^ Int.log 2 |x| := by
      rw [show (8388608 : ℚ) = (2 : ℚ) ^ (23 : ℤ) by norm_num,
        ← zpow_add₀ (two_ne_zero : (2:ℚ) ≠ 0)]
      congr 1
      omega
    linarith

/-- An argument at or above 32767 truncates to at least 32767. -/
theorem le_truncTowardZero_of_le (q : ℚ) (h : (32767 : ℚ) ≤ q) : 32767 ≤ truncTowardZero q := by
  unfold truncTowardZero
  rw [if_pos (by linarith)]
  exact Int.le_floor.mpr (by push_cast; linarith)

/-- An argument at or below -32768 truncates to at most -32768. -/
theorem truncTowardZero_le_of_le (q : ℚ) (h : q ≤ -32768) : truncTowardZero q ≤ -32768 := by
  unfold truncTowardZero
  rw [if_neg (by linarith)]
  exact Int.ceil_le.mpr (by push_cast; linarith)

/-! ### Helper lemmas about the bit-faithful loop -/

/-- The clamp maps values at or above 32767 to 32767. -/
theorem clamp16_of_ge (t : ℤ) (h : 32767 ≤ t) : clamp16 t = 32767 := by
  simp only [clamp16]
  split_ifs <;> omega

/-- The clamp maps values at or below -32768 to -32768. -/
theorem clamp16_of_le (t : ℤ) (h : t ≤ -32768) : clamp16 t = -32768 := by
  simp only [clamp16]
  split_ifs <;> omega

/-- The clamp is the identity on the 16-bit range. -/
theorem clamp16_of_mem (t : ℤ) (h1 : -32768 ≤ t) (h2 : t ≤ 32767) : clamp16 t = t := by
  simp only [clamp16]
  split_ifs <;> omega

/-- Inversion for the bit-faithful loop body: a defined result is the
clamped truncation of the binary32 product. -/
theorem processSampleF_eq_some (gain : ℚ) (s : ℤ) (v : ℤ)
    (h : processSampleF gain s = some v) :
    v = clamp16 (truncTowardZero (fl32 ((s : ℚ) * gain))) := by
  unfold processSampleF castToInt32 at h
  by_cases hc : -2147483648 ≤ truncTowardZero (fl32 ((s : ℚ) * gain)) ∧
      truncTowardZero (fl32 ((s : ℚ) * gain)) ≤ 2147483647
  · rw [if_pos hc] at h
    simpa using h.symm
  · rw [if_neg hc] at h
    simp at h

/-- Element-wise description of a defined run of `apply_gainF`: positions
below `len` (and within the buffer) hold a defined processed sample, all
others are untouched. -/
theorem apply_gainF_getD (samples : List ℤ) (len : ℕ) (g : ℚ) (out : List ℤ) (i : ℕ) (d : ℤ)
    (hout : apply_gainF samples len g = some out) :
    (i < len ∧ i < samples.length →
      processSampleF g (samples.getD i d) = some (out.getD i d)) ∧
    (¬(i < len ∧ i < samples.length) → out.getD i d = samples.getD i d) := by
  revert hout
  induction samples generalizing len out i with
  | nil =>
    intro hout
    simp [apply_gainF] at hout
    subst hout
    exact ⟨fun hlt => absurd hlt.2 (by simp), fun _ => rfl⟩
  | cons s rest ih =>
    intro hout
    cases len with
    | zero =>
      simp [apply_gainF] at hout
      subst hout
      exact ⟨fun hlt => absurd hlt.1 (by omega), fun _ => rfl⟩
    | succ n =>
      simp only [apply_gainF] at hout
      cases hv : processSampleF g s with
      | none =>
        rw [hv] at hout
        simp at hout
      | some v =>
        cases htl : apply_gainF rest n g with
        | none =>
          rw [hv, htl] at hout
          simp at hout
        | some tl =>
          rw [hv, htl] at hout
          simp only [Option.some_inj] at hout
          subst hout
          cases i with
          | zero =>
            constructor
            · intro _
              simpa using hv
            · intro hc
              exact absurd ⟨Nat.succ_pos n, Nat.succ_pos rest.length⟩ hc
          | succ j =>
            have IH := ih n tl j htl
            constructor
            · intro hlt
              have hj : j < n ∧ j < rest.length := by
                obtain ⟨ha, hb⟩ := hlt
                simp only [List.length_cons] at hb
                exact ⟨by omega, by omega⟩
              simpa using IH.1 hj
            · intro hc
              have hj : ¬(j < n ∧ j < rest.length) := by
                intro hcc
                exact hc ⟨by omega, by simp only [List.length_cons]; omega⟩
              simpa using IH.2 hj

/-! ### Concrete binary32 evaluations -/

/-- The binary32 product at the separating input: 10001 · (16775538 / 2^25)
is exactly 83886077769 / 2^24 ≈ 4999.99987, which rounds up to 5000. -/
theorem fl32_c2_product : fl32 ((10001 : ℚ) * (16775538 / 2 ^ 25)) = 5000 := by
  have hx : (10001 : ℚ) * (16775538 / 2 ^ 25) = 83886077769 / 16777216 := by norm_num
  rw [hx, fl32_eq_of_bracket _ 12 (by norm_num)
      (by rw [abs_of_pos (by norm_num)]; norm_num)
      (by rw [abs_of_pos (by norm_num)]; norm_num)]
  rw [show (83886077769 / 16777216 : ℚ) / 2 ^ ((12 : ℤ) - 23) = 83886077769 / 8192 by norm_num]
  rw [show (83886077769 : ℚ) / 8192 = ((10239999 : ℤ) : ℚ) + 5961/8192 by push_cast; norm_num]
  rw [roundNearestEven_eq_ceil _ 10239999 (by push_cast; norm_num) (by push_cast; norm_num)]
  push_cast
  norm_num

/-- 32000 · 2 = 64000 is exactly representable in binary32. -/
theorem fl32_64000 : fl32 ((32000 : ℚ) * 2) = 64000 := by
  rw [show (32000 : ℚ) * 2 = 64000 by norm_num, fl32_eq_of_bracket _ 15 (by norm_num)
      (by rw [abs_of_pos (by norm_num)]; norm_num)
      (by rw [abs_of_pos (by norm_num)]; norm_num)]
  rw [show (64000 : ℚ) / 2 ^ ((15 : ℤ) - 23) = ((16384000 : ℤ) : ℚ) by push_cast; norm_num]
  rw [roundNearestEven_intCast]
  push_cast
  norm_num

/-- -32000 · 2 = -64000 is exactly representable in binary32. -/
theorem fl32_neg64000 : fl32 ((-32000 : ℚ) * 2) = -64000 := by
  rw [show (-32000 : ℚ) * 2 = -64000 by norm_num, fl32_eq_of_bracket _ 15 (by norm_num)
      (by rw [abs_of_neg (by norm_num)]; norm_num)
      (by rw [abs_of_neg (by norm_num)]; norm_num)]
  rw [show (-64000 : ℚ) / 2 ^ ((15 : ℤ) - 23) = ((-16384000 : ℤ) : ℚ) by push_cast; norm_num]
  rw [roundNearestEven_intCast]
  push_cast
  norm_num

/-- 100 · 0.5 = 50 is exactly representable in binary32. -/
theorem fl32_50 : fl32 ((100 : ℚ) * (1/2)) = 50 := by
  rw [show (100 : ℚ) * (1/2) = 50 by norm_num, fl32_eq_of_bracket _ 5 (by norm_num)
      (by rw [abs_of_pos (by norm_num)]; norm_num)
      (by rw [abs_of_pos (by norm_num)]; norm_num)]
  rw [show (50 : ℚ) / 2 ^ ((5 : ℤ) - 23) = ((13107200 : ℤ) : ℚ) by push_cast; norm_num]
  rw [roundNearestEven_intCast]
  push_cast
  norm_num

/-- 1000 · 2^22 = 4194304000 = 125 · 2^25 is exactly representable in
binary32 — and far beyond the 32-bit int range. -/
theorem fl32_overflow_product : fl32 ((1000 : ℚ) * 2 ^ 22) = 4194304000 := by
  rw [show (1000 : ℚ) * 2 ^ 22 = 4194304000 by norm_num, fl32_eq_of_bracket _ 31 (by norm_num)
      (by rw [abs_of_pos (by norm_num)]; norm_num)
      (by rw [abs_of_pos (by norm_num)]; norm_num)]
  rw [show (4194304000 : ℚ) / 2 ^ ((31 : ℤ) - 23) = ((16384000 : ℤ) : ℚ) by push_cast; norm_num]
  rw [roundNearestEven_intCast]
  push_cast
  norm_num

/-- Evaluation rule for the bit-faithful loop body: a truncated product in
the int range is stored clamped. -/
theorem processSampleF_eq_of (gain : ℚ) (s : ℤ) (t : ℤ)
    (hfl : truncTowardZero (fl32 ((s : ℚ) * gain)) = t)
    (hlo : -2147483648 ≤ t) (hhi : t ≤ 2147483647) :
    processSampleF gain s = some (clamp16 t) := by
  unfold processSampleF castToInt32
  rw [hfl, if_pos ⟨hlo, hhi⟩]

/-- Evaluation rule for the bit-faithful loop body: a truncated product
beyond the int range is undefined behaviour. -/
theorem processSampleF_none_of (gain : ℚ) (s : ℤ) (t : ℤ)
    (hfl : truncTowardZero (fl32 ((s : ℚ) * gain)) = t)
    (h : 2147483647 < t) :
    processSampleF gain s = none := by
  unfold processSampleF castToInt32
  rw [hfl, if_neg (by omega)]

/-- Evaluation rule for a defined step of the bit-faithful loop. -/
theorem apply_gainF_cons (s : ℤ) (rest : List ℤ) (n : ℕ) (g : ℚ) (v : ℤ) (out : List ℤ)
    (hv : processSampleF g s = some v) (ho : apply_gainF rest n g = some out) :
    apply_gainF (s :: rest) (n + 1) g = some (v :: out) := by
  rw [show apply_gainF (s :: rest) (n + 1) g =
      (match processSampleF g s, apply_gainF rest n g with
       | some v, some tl => some (v :: tl)
       | _, _ => none) from rfl, hv, ho]

/-- Evaluation rule for an undefined step of the bit-faithful loop. -/
theorem apply_gainF_cons_none (s : ℤ) (rest : List ℤ) (n : ℕ) (g : ℚ)
    (hv : processSampleF g s = none) :
    apply_gainF (s :: rest) (n + 1) g = none := by
  cases ho : apply_gainF rest n g with
  | none =>
    rw [show apply_gainF (s :: rest) (n + 1) g =
        (match processSampleF g s, apply_gainF rest n g with
         | some v, some tl => some (v :: tl)
         | _, _ => none) from rfl, hv, ho]
  | some tl =>
    rw [show apply_gainF (s :: rest) (n + 1) g =
        (match processSampleF g s, apply_gainF rest n g with
         | some v, some tl => some (v :: tl)
         | _, _ => none) from rfl, hv, ho]

/-- The bit-faithful loop body stores 5000 (not 4999) at the separating
input. -/
theorem processSampleF_c2 : processSampleF (16775538 / 2 ^ 25) 10001 = some 5000 := by
  have hfl : truncTowardZero (fl32 (((10001 : ℤ) : ℚ) * (16775538 / 2 ^ 25))) = 5000 := by
    rw [show ((10001 : ℤ) : ℚ) = (10001 : ℚ) by norm_num, fl32_c2_product,
      show (5000 : ℚ) = ((5000 : ℤ) : ℚ) by norm_num, truncTowardZero_intCast]
  rw [processSampleF_eq_of _ _ _ hfl (by norm_num) (by norm_num)]
  norm_num [clamp16]

/-- The bit-faithful loop body saturates 32000 · 2 to 32767. -/
theorem processSampleF_32000 : processSampleF 2 32000 = some 32767 := by
  have hfl : truncTowardZero (fl32 (((32000 : ℤ) : ℚ) * 2)) = 64000 := by
    rw [show ((32000 : ℤ) : ℚ) = (32000 : ℚ) by norm_num, fl32_64000,
      show (64000 : ℚ) = ((64000 : ℤ) : ℚ) by norm_num, truncTowardZero_intCast]
  rw [processSampleF_eq_of _ _ _ hfl (by norm_num) (by norm_num)]
  norm_num [clamp16]

/-- The bit-faithful loop body saturates -32000 · 2 to -32768. -/
theorem processSampleF_neg32000 : processSampleF 2 (-32000) = some (-32768) := by
  have hfl : truncTowardZero (fl32 (((-32000 : ℤ) : ℚ) * 2)) = -64000 := by
    rw [show ((-32000 : ℤ) : ℚ) = (-32000 : ℚ) by norm_num, fl32_neg64000,
      show (-64000 : ℚ) = ((-64000 : ℤ) : ℚ) by norm_num, truncTowardZero_intCast]
  rw [processSampleF_eq_of _ _ _ hfl (by norm_num) (by norm_num)]
  norm_num [clamp16]

/-- The bit-faithful loop body stores 50 for 100 · 0.5. -/
theorem processSampleF_half : processSampleF (1/2) 100 = some 50 := by
  have hfl : truncTowardZero (fl32 (((100 : ℤ) : ℚ) * (1/2))) = 50 := by
    rw [show ((100 : ℤ) : ℚ) = (100 : ℚ) by norm_num, fl32_50,
      show (50 : ℚ) = ((50 : ℤ) : ℚ) by norm_num, truncTowardZero_intCast]
  rw [processSampleF_eq_of _ _ _ hfl (by norm_num) (by norm_num)]
  norm_num [clamp16]

/-- The bit-faithful loop body hits the undefined int cast at 1000 · 2^22. -/
theorem processSampleF_overflow : processSampleF (2 ^ 22) 1000 = none := by
  have hfl : truncTowardZero (fl32 (((1000 : ℤ) : ℚ) * 2 ^ 22)) = 4194304000 := by
    rw [show ((1000 : ℤ) : ℚ) = (1000 : ℚ) by norm_num, fl32_overflow_product,
      show (4194304000 : ℚ) = ((4194304000 : ℤ) : ℚ) by norm_num, truncTowardZero_intCast]
  exact processSampleF_none_of _ _ _ hfl (by norm_num)

/-- Full run at the separating input. -/
theorem apply_gainF_c2_eval : apply_gainF [10001] 1 (16775538 / 2 ^ 25) = some [5000] :=
  apply_gainF_cons _ _ _ _ _ _ processSampleF_c2 rfl

/-- Full run on the saturation scenario. -/
theorem apply_gainF_sat_eval : apply_gainF [32000, -32000] 2 2 = some [32767, -32768] :=
  apply_gainF_cons _ _ _ _ _ _ processSampleF_32000
    (apply_gainF_cons _ _ _ _ _ _ processSampleF_neg32000 rfl)

/-- Full run on the half-gain scenario. -/
theorem apply_gainF_half_eval : apply_gainF [100] 1 (1/2) = some [50] :=
  apply_gainF_cons _ _ _ _ _ _ processSampleF_half rfl

/-- Full run hitting undefined behaviour. -/
theorem apply_gainF_overflow_eval : apply_gainF [1000] 1 (2 ^ 22) = none :=
  apply_gainF_cons_none _ _ _ _ processSampleF_overflow

/-! ### The claims -/

/-- C1: For every buffer, every length, and every finite gain, after
`apply_gain buffer length gain` returns, every sample in the first `length`
positions of the buffer lies in the range [-32768, 32767]. -/
theorem apply_gain_output_in_range (samples : List ℤ) (len : ℕ) (g : ℚ) (i : ℕ) (d : ℤ)
    (h1 : i < len) (h2 : i < samples.length) :
    -32768 ≤ (apply_gain samples len g).getD i d ∧
      (apply_gain samples len g).getD i d ≤ 32767 := by
  rw [apply_gain_getD, if_pos ⟨h1, h2⟩]
  exact processSample_range g (samples.getD i d)

/-- Witness for C1 at a concrete input. -/
theorem apply_gain_output_in_range_witness :
    -32768 ≤ (apply_gain [1000, -1000, 32000, -32000] 4 2).getD 2 0 ∧
      (apply_gain [1000, -1000, 32000, -32000] 4 2).getD 2 0 ≤ 32767 :=
  apply_gain_output_in_range [1000, -1000, 32000, -32000] 4 2 2 0 (by norm_num) (by simp)

/-- C4: For every buffer of 16-bit samples and every length, applying
`apply_gain` with gain 1 leaves every sample unchanged. -/
theorem apply_gain_one_identity (samples : List ℤ) (len : ℕ)
    (h : ∀ s ∈ samples, -32768 ≤ s ∧ s ≤ 32767) :
    apply_gain samples len 1 = samples := by
  revert h
  induction samples generalizing len with
  | nil => intro _; simp [apply_gain]
  | cons s rest ih =>
    intro h
    cases len with
    | zero => rfl
    | succ n =>
      have hs := h s (by simp)
      have hr : ∀ x ∈ rest, -32768 ≤ x ∧ x ≤ 32767 := fun x hx => h x (by simp [hx])
      show processSample 1 s :: apply_gain rest n 1 = s :: rest
      rw [processSample_one s hs.1 hs.2, ih n hr]

/-- Witness for C4 at a concrete input. -/
theorem apply_gain_one_identity_witness :
    apply_gain [100, -200] 2 1 = [100, -200] :=
  apply_gain_one_identity [100, -200] 2 (by decide)

/-- C5: For every buffer and length, applying `apply_gain` with gain 0 sets
every sample in the first `length` positions to 0, including for negative
input samples. -/
theorem apply_gain_zero_zeroes (samples : List ℤ) (len : ℕ) (i : ℕ) (d : ℤ)
    (h1 : i < len) (h2 : i < samples.length) :
    (apply_gain samples len 0).getD i d = 0 := by
  rw [apply_gain_getD, if_pos ⟨h1, h2⟩]
  exact processSample_zero _

/-- Witness for C5 at a concrete negative input sample. -/
theorem apply_gain_zero_zeroes_witness :
    (apply_gain [-7] 1 0).getD 0 0 = 0 :=
  apply_gain_zero_zeroes [-7] 1 0 0 (by norm_num) (by simp)

/-- C6: `apply_gain` mutates only the first `length` elements of the buffer:
every position at or beyond `length` is unchanged, and with length 0 the
entire buffer is unchanged.  (That no memory access happens at all for
length 0 is an operational fact about the C++ loop guard, below the
granularity of this functional model.) -/
theorem apply_gain_frame (samples : List ℤ) (len : ℕ) (g : ℚ) :
    (∀ (i : ℕ) (d : ℤ), len ≤ i → (apply_gain samples len g).getD i d = samples.getD i d) ∧
    apply_gain samples 0 g = samples := by
  constructor
  · intro i d hle
    rw [apply_gain_getD, if_neg (fun hc => by omega)]
  · cases samples <;> rfl

/-- Witness for C6 at a concrete input. -/
theorem apply_gain_frame_witness :
    (apply_gain [5] 1 2).getD 3 0 = ([5] : List ℤ).getD 3 0 ∧
      apply_gain [5] 0 2 = [5] :=
  ⟨(apply_gain_frame [5] 1 2).1 3 0 (by norm_num), (apply_gain_frame [5] 0 2).2⟩

/-- C7: The two scenarios of the specification: gain 2 on
[1000, -1000, 32000, -32000] yields [2000, -2000, 32767, -32768], and gain
0.5 on [100] yields [50]. -/
theorem apply_gain_scenarios :
    apply_gain [1000, -1000, 32000, -32000] 4 2 = [2000, -2000, 32767, -32768] ∧
      apply_gain [100] 1 (1/2) = [50] := by
  constructor <;>
    norm_num [apply_gain, processSample, truncTowardZero_eq_neg_floor_neg]

/-- C8: `apply_gain` is deterministic: two calls with equal buffer contents,
equal length and equal gain produce equal buffer contents.  (The model is a
pure function of exactly these three inputs, so no other state is read or
written.) -/
theorem apply_gain_deterministic (b₁ b₂ : List ℤ) (l₁ l₂ : ℕ) (g₁ g₂ : ℚ)
    (hb : b₁ = b₂) (hl : l₁ = l₂) (hg : g₁ = g₂) :
    apply_gain b₁ l₁ g₁ = apply_gain b₂ l₂ g₂ := by
  rw [hb, hl, hg]

/-- Witness for C8 at a concrete input. -/
theorem apply_gain_deterministic_witness :
    apply_gain [7] 1 2 = apply_gain [7] 1 2 :=
  apply_gain_deterministic [7] [7] 1 1 2 2 rfl rfl rfl

/-- C9: `apply_gain` terminates unconditionally (it is a total function by
construction), performing exactly one pass of `length` iterations whenever
`length` is within the buffer size, and its instrumented run computes the
same result. -/
theorem apply_gain_iterations (samples : List ℤ) (len : ℕ) (g : ℚ)
    (h : len ≤ samples.length) :
    (applyGainIter samples len g).2 = len ∧
      (applyGainIter samples len g).1 = apply_gain samples len g := by
  induction samples generalizing len with
  | nil =>
    have hlen : len = 0 := by simpa using h
    subst hlen
    exact ⟨rfl, rfl⟩
  | cons s rest ih =>
    cases len with
    | zero => exact ⟨rfl, rfl⟩
    | succ n =>
      have hn : n ≤ rest.length := by simpa using h
      obtain ⟨hc, hv⟩ := ih n hn
      constructor
      · show (applyGainIter rest n g).2 + 1 = n + 1
        omega
      · show processSample g s :: (applyGainIter rest n g).1
            = processSample g s :: apply_gain rest n g
        rw [hv]

/-- Witness for C9 at a concrete input. -/
theorem apply_gain_iterations_witness :
    (applyGainIter [1000] 1 2).2 = 1 ∧
      (applyGainIter [1000] 1 2).1 = apply_gain [1000] 1 2 :=
  apply_gain_iterations [1000] 1 2 (by simp)

/-- C2 counterexample: at sample 10001 and the binary32 gain
16775538 / 2^25 ≈ 0.49999994, the exact product ≈ 4999.99987 is within
[-32768, 32767] and truncates to 4999, but the program's binary32 multiply
rounds the product to exactly 5000.0 and it stores 5000. -/
theorem apply_gain_exact_product_counterexample :
    (-32768 : ℚ) ≤ (10001 : ℚ) * (16775538 / 2 ^ 25) ∧
    (10001 : ℚ) * (16775538 / 2 ^ 25) ≤ 32767 ∧
    truncTowardZero ((10001 : ℚ) * (16775538 / 2 ^ 25)) = 4999 ∧
    apply_gainF [10001] 1 (16775538 / 2 ^ 25) = some [5000] := by
  refine ⟨by norm_num, by norm_num, ?_, apply_gainF_c2_eval⟩
  rw [show (10001 : ℚ) * (16775538 / 2 ^ 25) = 83886077769 / 16777216 by norm_num,
    truncTowardZero_eq_neg_floor_neg]
  norm_num

/-- C2 (amended): for every sample in the processed prefix and every finite
gain such that the binary32-rounded product fl32(s · g) lies within
[-32768, 32767], whenever the call executes without undefined behaviour the
value stored back at that position equals truncate_toward_zero(fl32(s · g))
exactly. -/
theorem apply_gainF_exact_in_range (samples : List ℤ) (len : ℕ) (g : ℚ) (i : ℕ) (d : ℤ)
    (out : List ℤ) (h1 : i < len) (h2 : i < samples.length)
    (hout : apply_gainF samples len g = some out)
    (hlo : -32768 ≤ fl32 ((samples.getD i d : ℚ) * g))
    (hhi : fl32 ((samples.getD i d : ℚ) * g) ≤ 32767) :
    out.getD i d = truncTowardZero (fl32 ((samples.getD i d : ℚ) * g)) := by
  have hps := (apply_gainF_getD samples len g out i d hout).1 ⟨h1, h2⟩
  have heq := processSampleF_eq_some g _ _ hps
  rw [heq, clamp16_of_mem _ (le_truncTowardZero _ hlo) (truncTowardZero_le _ hhi)]

/-- Witness for the amended C2 at the separating input: the stored value is
the truncation of the float32 product (5000), not of the exact one. -/
theorem apply_gainF_exact_in_range_witness :
    ([5000] : List ℤ).getD 0 0
      = truncTowardZero (fl32 ((([10001] : List ℤ).getD 0 0 : ℚ) * (16775538 / 2 ^ 25))) :=
  apply_gainF_exact_in_range [10001] 1 (16775538 / 2 ^ 25) 0 0 [5000]
    (by norm_num) (by simp) apply_gainF_c2_eval
    (by simp only [List.getD_cons_zero]
        rw [show ((10001 : ℤ) : ℚ) = (10001 : ℚ) by norm_num, fl32_c2_product]
        norm_num)
    (by simp only [List.getD_cons_zero]
        rw [show ((10001 : ℤ) : ℚ) = (10001 : ℚ) by norm_num, fl32_c2_product]
        norm_num)

/-- C3 counterexample: at sample 1000 and the finite gain 2^22 the exact
product 4194304000 exceeds 32767, yet the program does not store 32767: the
float product overflows the 32-bit int cast, which is undefined behaviour
(an x86 `cvttss2si` yields INT_MIN, which the clamps turn into -32768). -/
theorem apply_gain_saturation_counterexample :
    (32767 : ℚ) < (1000 : ℚ) * 2 ^ 22 ∧
    apply_gainF [1000] 1 (2 ^ 22) = none :=
  ⟨by norm_num, apply_gainF_overflow_eval⟩

/-- C3 (amended): for every sample in the processed prefix and every finite
gain, whenever the call executes without undefined behaviour in the int
cast, an exact product above 32767 stores 32767 and an exact product below
-32768 stores -32768 (saturation at both range boundaries). -/
theorem apply_gainF_saturates (samples : List ℤ) (len : ℕ) (g : ℚ) (i : ℕ) (d : ℤ)
    (out : List ℤ) (h1 : i < len) (h2 : i < samples.length)
    (hout : apply_gainF samples len g = some out) :
    (32767 < (samples.getD i d : ℚ) * g → out.getD i d = 32767) ∧
    ((samples.getD i d : ℚ) * g < -32768 → out.getD i d = -32768) := by
  have hps := (apply_gainF_getD samples len g out i d hout).1 ⟨h1, h2⟩
  have heq := processSampleF_eq_some g _ _ hps
  constructor
  · intro hgt
    rw [heq, clamp16_of_ge _ (le_truncTowardZero_of_le _ (le_fl32_of_int16max_lt _ hgt))]
  · intro hlt
    rw [heq, clamp16_of_le _ (truncTowardZero_le_of_le _ (fl32_le_of_lt_int16min _ hlt))]

/-- Witness for the amended C3 on both saturation sides. -/
theorem apply_gainF_saturates_witness :
    ([32767, -32768] : List ℤ).getD 0 0 = 32767 ∧
    ([32767, -32768] : List ℤ).getD 1 0 = -32768 :=
  ⟨(apply_gainF_saturates [32000, -32000] 2 2 0 0 [32767, -32768]
      (by norm_num) (by simp) apply_gainF_sat_eval).1
      (by simp only [List.getD_cons_zero]; norm_num),
   (apply_gainF_saturates [32000, -32000] 2 2 1 0 [32767, -32768]
      (by norm_num) (by simp) apply_gainF_sat_eval).2
      (by simp only [List.getD_cons_succ, List.getD_cons_zero]; norm_num)⟩

/-- C10: the intermediate product is computed in binary32 before truncation
toward zero: on a defined run, each processed position stores exactly
`clamp16 (truncTowardZero (fl32 (s · g)))` — the stored value is determined
by the float32-rounded product, not the exact real product (which differs,
e.g., at the input of the C2 counterexample). -/
theorem apply_gainF_float32_semantics (samples : List ℤ) (len : ℕ) (g : ℚ) (i : ℕ) (d : ℤ)
    (out : List ℤ) (h1 : i < len) (h2 : i < samples.length)
    (hout : apply_gainF samples len g = some out) :
    processSampleF g (samples.getD i d) = some (out.getD i d) ∧
    out.getD i d = clamp16 (truncTowardZero (fl32 ((samples.getD i d : ℚ) * g))) := by
  have hps := (apply_gainF_getD samples len g out i d hout).1 ⟨h1, h2⟩
  exact ⟨hps, processSampleF_eq_some g _ _ hps⟩

/-- Witness for C10 at a concrete input. -/
theorem apply_gainF_float32_semantics_witness :
    processSampleF (1/2) (([100] : List ℤ).getD 0 0) = some (([50] : List ℤ).getD 0 0) ∧
    ([50] : List ℤ).getD 0 0
      = clamp16 (truncTowardZero (fl32 ((([100] : List ℤ).getD 0 0 : ℚ) * (1/2)))) :=
  apply_gainF_float32_semantics [100] 1 (1/2) 0 0 [50] (by norm_num) (by simp)
    apply_gainF_half_eval

end AudioFilter
